import Mathlib

/-!
Verification of the email-indicator extraction script (`src/main.py`).

The script is shallowly embedded: documents are `List Char`, Python's
`str.find` / negative-index slicing / `sys.exit(2)` / `try ... except`
become explicit total functions, `re.findall` for the concrete patterns
used by the script becomes an executable scanner, and the MySQL-backed
persistence layer becomes a state-passing model of the singleton class
plus a relational model of the single grouped query the script issues.
-/

namespace MailParse

/-- Python `str.find(sub)`: index of the first occurrence of `pat` in `doc`,
or `-1` when `pat` does not occur. -/
def occursAt (pat doc : List Char) (i : Nat) : Bool :=
  pat.isPrefixOf (doc.drop i)

def pyFind (pat doc : List Char) : Int :=
  match (List.range (doc.length + 1)).find? (fun i => occursAt pat doc i) with
  | some i => (i : Int)
  | none => -1

/-- Python `doc[:stop]` for an `Int` stop index: a negative stop counts from
the end of the list (clamped at zero). -/
def pySliceTo (doc : List Char) (stop : Int) : List Char :=
  if stop < 0 then doc.take ((doc.length : Int) + stop).toNat else doc.take stop.toNat

/-- The literal marker `get_header` searches for. -/
def htmlMarker : List Char := "<!DOCTYPE html".toList

/-- `get_header` (main.py:235-244):
`header_endpoint = email_content.find('<!DOCTYPE html')`;
`head = email_content[:header_endpoint]`. -/
def get_header (email_content : List Char) : List Char :=
  pySliceTo email_content (pyFind htmlMarker email_content)

/-- `find?` over `List.range' s n` returns the least index satisfying the
predicate, among the scanned ones. -/
theorem find?_range'_least (p : Nat → Bool) :
    ∀ (n s i : Nat), (List.range' s n).find? p = some i →
      p i = true ∧ s ≤ i ∧ ∀ j, s ≤ j → j < i → p j = false := by
  intro n
  induction n with
  | zero => intro s i h; simp [List.range'] at h
  | succ m ih =>
    intro s i h
    rw [List.range'_succ] at h
    by_cases hs : p s = true
    · rw [List.find?_cons_of_pos _ hs] at h
      cases h
      exact ⟨hs, le_refl _, fun j h1 h2 => absurd (lt_of_le_of_lt h1 h2) (lt_irrefl _)⟩
    · rw [List.find?_cons_of_neg _ (by simpa using hs)] at h
      obtain ⟨hp, hsi, hleast⟩ := ih (s + 1) i h
      refine ⟨hp, le_trans (Nat.le_succ s) hsi, fun j h1 h2 => ?_⟩
      rcases Nat.eq_or_lt_of_le h1 with h1 | h1
      · simpa [← h1] using hs
      · exact hleast j h1 h2

theorem pyFind_nonneg_spec (pat doc : List Char) (i : Nat)
    (h : pyFind pat doc = (i : Int)) :
    occursAt pat doc i = true ∧ ∀ j, j < i → occursAt pat doc j = false := by
  cases hf : (List.range (doc.length + 1)).find? (fun k => occursAt pat doc k) with
  | none =>
    exfalso
    have hneg : pyFind pat doc = -1 := by unfold pyFind; rw [hf]
    rw [h] at hneg
    omega
  | some k =>
    have hpos : pyFind pat doc = (k : Int) := by unfold pyFind; rw [hf]
    rw [h] at hpos
    have hk : k = i := by exact_mod_cast hpos.symm
    subst hk
    rw [List.range_eq_range'] at hf
    obtain ⟨hp, _, hleast⟩ := find?_range'_least _ _ _ _ hf
    exact ⟨hp, fun j hj => hleast j (Nat.zero_le j) hj⟩

theorem pyFind_neg_spec (pat doc : List Char)
    (h : pyFind pat doc = -1) : ∀ j, occursAt pat doc j = false := by
  intro j
  cases hf : (List.range (doc.length + 1)).find? (fun k => occursAt pat doc k) with
  | some k =>
    exfalso
    have hpos : pyFind pat doc = (k : Int) := by unfold pyFind; rw [hf]
    rw [h] at hpos
    omega
  | none =>
    rw [List.find?_eq_none] at hf
    by_cases hj : j < doc.length + 1
    · by_contra hocc
      exact hf j (List.mem_range.mpr hj) (by simpa using hocc)
    · push_neg at hj
      have : doc.drop j = [] := List.drop_eq_nil_of_le (by omega)
      unfold occursAt
      rw [this]
      cases hpat : pat with
      | nil =>
        exfalso
        refine hf 0 (List.mem_range.mpr (Nat.succ_pos _)) ?_
        simp [occursAt, hpat, List.isPrefixOf]
      | cons c cs => simp [List.isPrefixOf]

/-- C1 (counterexample): on the empty document the marker is absent
(`find` gives `-1`), yet `get_header` returns the whole document — the
claim's "not the whole document" part fails there. -/
theorem get_header_whole_doc_cex :
    pyFind htmlMarker [] = -1 ∧ get_header [] = ([] : List Char) := by
  constructor <;> rfl

/-- C1 (amended): when the marker `<!DOCTYPE html` occurs, `get_header`
returns the prefix of the document strictly before its first occurrence;
when it is absent, `get_header` returns the index `-1` slice, i.e. the
document minus its last character — which differs from the whole document
whenever the document is non-empty. -/
theorem get_header_spec (doc : List Char) :
    (∀ i : Nat, pyFind htmlMarker doc = (i : Int) →
      occursAt htmlMarker doc i = true ∧
      (∀ j, j < i → occursAt htmlMarker doc j = false) ∧
      get_header doc = doc.take i) ∧
    (pyFind htmlMarker doc = -1 →
      (∀ j, occursAt htmlMarker doc j = false) ∧
      get_header doc = doc.dropLast ∧
      (doc ≠ [] → get_header doc ≠ doc)) := by
  constructor
  · intro i h
    obtain ⟨h1, h2⟩ := pyFind_nonneg_spec _ _ _ h
    refine ⟨h1, h2, ?_⟩
    unfold get_header
    rw [h]
    unfold pySliceTo
    rw [if_neg (by omega)]
    simp
  · intro h
    refine ⟨pyFind_neg_spec _ _ h, ?_, ?_⟩
    · unfold get_header
      rw [h]
      unfold pySliceTo
      rw [if_pos (by omega)]
      rw [List.dropLast_eq_take]
      congr 1
      omega
    · intro hne
      unfold get_header
      rw [h]
      unfold pySliceTo
      rw [if_pos (by omega)]
      intro habs
      have hlen := congrArg List.length habs
      rw [List.length_take] at hlen
      have : 0 < doc.length := List.length_pos.mpr hne
      omega

/-- Witness for C1: a concrete document without the marker. -/
theorem get_header_spec_witness :
    get_header "ab".toList = "a".toList ∧ get_header "ab".toList ≠ "ab".toList := by
  have h := (get_header_spec ("ab".toList)).2 (by decide)
  exact ⟨h.2.1.trans (by decide), h.2.2 (by decide)⟩

/-! ### The regular-expression engine used by `header_search`

`header_search` hands `re.findall` either the user's pattern string or
`'.*' + substring + '.*'`.  We embed the fragment of Python regex syntax
those strings use: literal characters, `.` (any character except a
newline) and the greedy postfix `*`.  Matching follows Python's
backtracking priority (a greedy star tries the longest repetition first),
and `findall` scans left to right, returning non-overlapping matches. -/

inductive RAtom
  | dot
  | ch (c : Char)
deriving DecidableEq

inductive RItem
  | atom (a : RAtom)
  | star (a : RAtom)
deriving DecidableEq

def atomMatch : RAtom → Char → Bool
  | RAtom.dot, c => c ≠ '\n'
  | RAtom.ch a, c => c = a

/-- Candidate repetition counts for a greedy star over `a` at suffix `s`,
longest first. -/
def starChoices (a : RAtom) (s : List Char) : List Nat :=
  (List.range ((s.takeWhile (atomMatch a)).length + 1)).reverse

/-- Length of the match of the item sequence at the head of `s`, following
Python's backtracking priority; `none` when there is no match here. -/
def matchSeq : List RItem → List Char → Option Nat
  | [], _ => some 0
  | RItem.atom _ :: _, [] => none
  | RItem.atom a :: rest, c :: s =>
    if atomMatch a c then (matchSeq rest s).map (· + 1) else none
  | RItem.star a :: rest, s =>
    (starChoices a s).findSome? fun k => (matchSeq rest (s.drop k)).map (· + k)

/-- One scanning pass of `re.findall`: at each position try the pattern;
on a match, record it and resume after it (after an empty match, resume
one character further); on failure, advance one character.  The fuel is
an upper bound on the number of scanning steps. -/
def findallAux (items : List RItem) : Nat → List Char → List (List Char)
  | 0, _ => []
  | fuel + 1, s =>
    match matchSeq items s with
    | none =>
      match s with
      | [] => []
      | _ :: s1 => findallAux items fuel s1
    | some 0 =>
      [] :: (match s with
             | [] => []
             | _ :: s1 => findallAux items fuel s1)
    | some (l + 1) => s.take (l + 1) :: findallAux items fuel (s.drop (l + 1))

def findallR (items : List RItem) (s : List Char) : List (List Char) :=
  findallAux items (s.length + 1) s

/-- Parse a pattern string of the fragment used by the script: `.`/`*`
are the only metacharacters, every other character is a literal. -/
def parsePatAtom (c : Char) : RAtom :=
  if c = '.' then RAtom.dot else RAtom.ch c

def parsePat : List Char → List RItem
  | [] => []
  | c :: '*' :: rest => RItem.star (parsePatAtom c) :: parsePat rest
  | c :: rest => RItem.atom (parsePatAtom c) :: parsePat rest

/-- The pattern `header_search` builds in substring mode:
`pattern = '.*' + substring + '.*'` (main.py:263), the substring
interpolated verbatim, unescaped. -/
def substringPattern (substring : List Char) : List Char :=
  ".*".toList ++ substring ++ ".*".toList

/-- `header_search` (main.py:247-272): slices the header, then requires
exactly one of substring/pattern to be non-empty; in substring mode the
effective pattern is `.*substring.*`; otherwise the user pattern is used
as is; any other combination exits the process with code 2. -/
def header_search (email_content substring pattern : List Char) :
    Except Nat (List (List Char)) :=
  let head := get_header email_content
  if pattern = [] ∧ substring ≠ [] then
    Except.ok (findallR (parsePat (substringPattern substring)) head)
  else if pattern ≠ [] ∧ substring = [] then
    Except.ok (findallR (parsePat pattern) head)
  else
    Except.error 2

/-- Truthiness of an optional CLI string argument (`argparse` leaves an
unsupplied flag as `None`; an empty string is also falsy). -/
def argTruthy (a : Option (List Char)) : Bool :=
  match a with
  | none => false
  | some s => s ≠ []

/-- The search-mode dispatch of `__main__` (main.py:300-304):
`if args.pattern: ... elif args.substring: ...` — no branch for both or
neither flag. -/
def main_search_dispatch (mail_text : List Char)
    (patternArg substringArg : Option (List Char)) :
    Except Nat (Option (List (List Char))) :=
  if argTruthy patternArg then
    (header_search mail_text [] (patternArg.getD [])).map some
  else if argTruthy substringArg then
    (header_search mail_text (substringArg.getD []) []).map some
  else
    Except.ok none

/-- C5: calling `header_search` with both a non-empty pattern and a
non-empty substring, or with both empty, exits the process with code 2. -/
theorem header_search_mode_exclusive (doc s p : List Char)
    (h : (s ≠ [] ∧ p ≠ []) ∨ (s = [] ∧ p = [])) :
    header_search doc s p = Except.error 2 := by
  unfold header_search
  rcases h with ⟨hs, hp⟩ | ⟨hs, hp⟩
  · rw [if_neg (by simp [hp]), if_neg (by simp [hs])]
  · rw [if_neg (by simp [hs]), if_neg (by simp [hp])]

/-- Witness for C5: both modes supplied at once. -/
theorem header_search_mode_exclusive_witness :
    header_search [] ['a'] ['b'] = Except.error 2 :=
  header_search_mode_exclusive [] ['a'] ['b'] (Or.inl ⟨by decide, by decide⟩)

/-- The document of the C4 example: its header region (the part before
`<!DOCTYPE html`) is `From: a@b.com\nTo: c@d.com`. -/
def c4doc : List Char := "From: a@b.com\nTo: c@d.com<!DOCTYPE html".toList

/-- C4: in substring mode `header_search` matches the pattern
`'.*' + substring + '.*'` over the header region with find-all semantics,
and on the example document with substring `From` the result is exactly
`["From: a@b.com"]`. -/
theorem header_search_substring_spec :
    (∀ doc s : List Char, s ≠ [] →
      header_search doc s [] =
        Except.ok (findallR (parsePat (".*".toList ++ s ++ ".*".toList)) (get_header doc))) ∧
    header_search c4doc "From".toList [] = Except.ok ["From: a@b.com".toList] := by
  constructor
  · intro doc s hs
    unfold header_search substringPattern
    rw [if_pos ⟨rfl, hs⟩]
  · rfl

/-- Witness for C4: the general substring-mode equation applied on the
example document. -/
theorem header_search_substring_spec_witness :
    header_search c4doc "From".toList [] =
      Except.ok (findallR (parsePat (".*".toList ++ "From".toList ++ ".*".toList))
        (get_header c4doc)) :=
  header_search_substring_spec.1 c4doc "From".toList (by decide)

/-- C3 (counterexample): supplying both header-search flags does not exit
with code 2 — the pattern flag wins and the search succeeds; supplying
neither does not exit with code 2 either — the search is skipped. -/
theorem main_dispatch_both_neither_cex :
    main_search_dispatch "From: x<!DOCTYPE html".toList
        (some "From".toList) (some "x".toList) = Except.ok (some ["From".toList]) ∧
    main_search_dispatch "From: x<!DOCTYPE html".toList none none = Except.ok none := by
  constructor <;> rfl

/-- C3 (amended): when both flags are supplied the dispatch runs a
pattern-mode search (the substring flag is ignored) and does not exit;
when only the substring flag is supplied it runs a substring-mode search;
when neither is supplied the search is skipped; none of these paths exits
with code 2 — exit code 2 arises only inside `header_search` itself, and
the dispatch never calls it with both or neither argument non-empty. -/
theorem main_dispatch_spec (mail : List Char) (p s : Option (List Char)) :
    (argTruthy p = true →
      main_search_dispatch mail p s =
        Except.ok (some (findallR (parsePat (p.getD [])) (get_header mail)))) ∧
    (argTruthy p = false → argTruthy s = true →
      main_search_dispatch mail p s =
        Except.ok (some (findallR (parsePat (substringPattern (s.getD [])))
          (get_header mail)))) ∧
    (argTruthy p = false → argTruthy s = false →
      main_search_dispatch mail p s = Except.ok none) := by
  refine ⟨fun hp => ?_, fun hp hs => ?_, fun hp hs => ?_⟩
  · have hpne : p.getD [] ≠ [] := by
      cases p with
      | none => simp [argTruthy] at hp
      | some v => simpa [argTruthy] using hp
    unfold main_search_dispatch
    rw [if_pos hp]
    unfold header_search
    rw [if_neg (by simp [hpne]), if_pos ⟨hpne, rfl⟩]
    rfl
  · have hsne : s.getD [] ≠ [] := by
      cases s with
      | none => simp [argTruthy] at hs
      | some v => simpa [argTruthy] using hs
    unfold main_search_dispatch
    rw [if_neg (by simp [hp]), if_pos hs]
    unfold header_search
    rw [if_pos ⟨rfl, hsne⟩]
    rfl
  · unfold main_search_dispatch
    rw [if_neg (by simp [hp]), if_neg (by simp [hs])]

/-- Witness for C3 (amended): the pattern flag alone triggers a
pattern-mode search. -/
theorem main_dispatch_spec_witness :
    main_search_dispatch "From: x<!DOCTYPE html".toList (some "From".toList) none =
      Except.ok (some (findallR (parsePat ((some "From".toList).getD []))
        (get_header "From: x<!DOCTYPE html".toList))) :=
  (main_dispatch_spec "From: x<!DOCTYPE html".toList (some "From".toList) none).1
    (by decide)

/-! ### The persistence gateway (`DbConnection`, main.py:24-101)

A construction request `DbConnection(cfg)` runs `type.__call__`:
`__new__` returns the already-stored instance when one exists (the
singleton part, main.py:30-35) and, because the returned object is an
instance of the class, `__init__` then always runs on it (main.py:37-75),
overwriting every attribute it assigns and re-establishing the
connection; a successful connection re-runs the destructive
`recreate_tables` (main.py:77-101).  External effects (connection
attempts, table resets) are recorded as an event list; `sys.exit(2)` is
recorded as an exit code. -/

structure DbConfig where
  host : List Char
  port : Nat
  user : List Char
  password : List Char
  data_base : List Char
deriving DecidableEq

structure DbInstanceState where
  host : List Char
  port : Nat
  user : List Char
  password : List Char
  data_base : List Char
  conn : Bool
deriving DecidableEq

inductive DbEvent
  | connectAttempt (cfg : DbConfig)
  | tableReset
deriving DecidableEq

/-- `object.__new__(cls)`: a bare object; no attribute has been assigned
yet, and every path through `__init__` assigns an attribute before
reading it, so these placeholder values are never observable. -/
def freshInstance : DbInstanceState := ⟨[], 0, [], [], [], false⟩

structure ConstructResult where
  slot : Option DbInstanceState
  events : List DbEvent
  exitCode : Option Nat
deriving DecidableEq

/-- One construction request `DbConnection(host, port, user, password,
data_base)`.  `connOk cfg` models whether the MySQL server accepts the
connection (`is_connected` true and no `mysql.connector.Error`). -/
def dbConnection_call (connOk : DbConfig → Bool) (slot : Option DbInstanceState)
    (cfg : DbConfig) : ConstructResult :=
  let obj0 : DbInstanceState :=
    match slot with
    | some inst => inst
    | none => freshInstance
  let obj1 := { obj0 with host := cfg.host, port := cfg.port, user := cfg.user }
  if cfg.password = [] then
    ⟨some obj1, [], some 2⟩
  else
    let obj2 := { obj1 with password := cfg.password }
    if cfg.data_base = [] then
      ⟨some obj2, [], some 2⟩
    else
      let obj3 := { obj2 with data_base := cfg.data_base }
      if connOk cfg then
        ⟨some { obj3 with conn := true },
         [DbEvent.connectAttempt cfg, DbEvent.tableReset], none⟩
      else
        ⟨some { obj3 with conn := false }, [DbEvent.connectAttempt cfg], none⟩

/-- C2 (code bug): a second construction request with a different, valid
configuration is not a no-op: `__init__` re-runs, so the process
reconnects with the second configuration, re-runs the destructive table
reset, and the retained host/credentials are those of the second
configuration, not the first. -/
theorem dbConnection_reinit_bug :
    (dbConnection_call (fun _ => true)
      (dbConnection_call (fun _ => true) none
        ⟨"h1".toList, 3306, "root".toList, "pw1".toList, "db1".toList⟩).slot
      ⟨"h2".toList, 3307, "u2".toList, "pw2".toList, "db2".toList⟩).events =
      [DbEvent.connectAttempt ⟨"h2".toList, 3307, "u2".toList, "pw2".toList, "db2".toList⟩,
       DbEvent.tableReset] ∧
    (dbConnection_call (fun _ => true)
      (dbConnection_call (fun _ => true) none
        ⟨"h1".toList, 3306, "root".toList, "pw1".toList, "db1".toList⟩).slot
      ⟨"h2".toList, 3307, "u2".toList, "pw2".toList, "db2".toList⟩).slot =
      some ⟨"h2".toList, 3307, "u2".toList, "pw2".toList, "db2".toList, true⟩ := by
  constructor <;> rfl

/-- C7: a construction request with an empty password or an empty
database name exits the process with code 2 before any connection
attempt (its event list is empty). -/
theorem dbConnection_empty_credentials_fatal (connOk : DbConfig → Bool)
    (slot : Option DbInstanceState) (cfg : DbConfig)
    (h : cfg.password = [] ∨ cfg.data_base = []) :
    (dbConnection_call connOk slot cfg).exitCode = some 2 ∧
    (dbConnection_call connOk slot cfg).events = [] := by
  unfold dbConnection_call
  by_cases hpw : cfg.password = []
  · rw [if_pos hpw]
    exact ⟨rfl, rfl⟩
  · rcases h with h | h
    · exact absurd h hpw
    · rw [if_neg hpw, if_pos h]
      exact ⟨rfl, rfl⟩

/-- Witness for C7: an empty password. -/
theorem dbConnection_empty_credentials_fatal_witness :
    (dbConnection_call (fun _ => true) none
      ⟨"h".toList, 3306, "u".toList, [], "d".toList⟩).exitCode = some 2 ∧
    (dbConnection_call (fun _ => true) none
      ⟨"h".toList, 3306, "u".toList, [], "d".toList⟩).events = [] :=
  dbConnection_empty_credentials_fatal (fun _ => true) none
    ⟨"h".toList, 3306, "u".toList, [], "d".toList⟩ (Or.inl rfl)

/-! ### The grouped-count query (`get_ips_and_domains`, main.py:207-232)

The script issues `SELECT v, COUNT(v) FROM t GROUP BY v ORDER BY
COUNT(v) DESC`.  We model the query over the multiset of stored values:
one row per distinct value, paired with its number of occurrences, rows
ordered by descending count (SQL leaves the order among equal counts
unspecified; the model picks one). -/

/-- Row order of `ORDER BY COUNT(v) DESC`: the left row's count is at
least the right row's count. -/
def countGE (a b : List Char × Nat) : Prop := b.2 ≤ a.2

instance : DecidableRel countGE := fun a b => Nat.decLe b.2 a.2

instance : IsTotal (List Char × Nat) countGE := ⟨fun a b => le_total b.2 a.2⟩

instance : IsTrans (List Char × Nat) countGE := ⟨fun _ _ _ h1 h2 => le_trans h2 h1⟩

def query_grouped (vals : List (List Char)) : List (List Char × Nat) :=
  List.insertionSort countGE (vals.dedup.map fun v => (v, vals.count v))

/-- C8: the grouped-count query returns one pair per distinct stored
value, pairing it with its occurrence count, ordered by descending
count; on `["1.1.1.1", "1.1.1.1", "2.2.2.2"]` it returns
`[("1.1.1.1", 2), ("2.2.2.2", 1)]`. -/
theorem query_grouped_spec :
    (∀ vals : List (List Char),
      (query_grouped vals).Pairwise (fun a b => b.2 ≤ a.2) ∧
      (∀ v c, (v, c) ∈ query_grouped vals ↔ v ∈ vals ∧ c = vals.count v) ∧
      ((query_grouped vals).map Prod.fst).Nodup) ∧
    query_grouped ["1.1.1.1".toList, "1.1.1.1".toList, "2.2.2.2".toList] =
      [("1.1.1.1".toList, 2), ("2.2.2.2".toList, 1)] := by
  refine ⟨fun vals => ⟨?_, ?_, ?_⟩, by rfl⟩
  · exact List.sorted_insertionSort countGE _
  · intro v c
    unfold query_grouped
    rw [(List.perm_insertionSort countGE _).mem_iff]
    constructor
    · intro h
      obtain ⟨u, hu, huv⟩ := List.mem_map.mp h
      obtain ⟨h1, h2⟩ := Prod.mk.injEq .. ▸ huv
      exact ⟨h1 ▸ List.mem_dedup.mp hu, h2.symm ▸ h1 ▸ rfl⟩
    · rintro ⟨hv, rfl⟩
      exact List.mem_map.mpr ⟨v, List.mem_dedup.mpr hv, rfl⟩
  · unfold query_grouped
    have hperm : ((List.insertionSort countGE
        (vals.dedup.map fun v => (v, vals.count v))).map Prod.fst).Perm
        ((vals.dedup.map fun v => (v, vals.count v)).map Prod.fst) :=
      (List.perm_insertionSort countGE _).map Prod.fst
    rw [hperm.nodup_iff, List.map_map]
    have hcomp : (Prod.fst ∘ fun v => (v, vals.count v)) = id := rfl
    rw [hcomp, List.map_id]
    exact vals.nodup_dedup

/-! ### Printing the stored indicators (`get_ips_and_domains`,
main.py:202-232)

Each section indexes `rows[0]` inside a `try` block.  The IPs section
catches `IndexError` and prints a fallback line; the domains section
catches only `KeyError`, so on an empty row list the `IndexError` from
`rows[0]` escapes.  The domains section also lacks the bare-value
`else` branch that the IPs section has. -/

inductive PyExc
  | indexError
  | keyError
deriving DecidableEq

/-- Python `l[i]` on a list: the element, or an `IndexError`. -/
def pyIndex {α : Type} (l : List α) (i : Nat) : Except PyExc α :=
  if h : i < l.length then Except.ok (l.get ⟨i, h⟩) else Except.error PyExc.indexError

/-- The line `print(row[0], "\t", row[1])`: `print` joins its arguments
with single spaces. -/
def countLine (r : List Char × Nat) : List Char :=
  r.1 ++ " \t ".toList ++ (Nat.repr r.2).toList

/-- Body of the IPs `try` block (main.py:213-218). -/
def ips_body (rows : List (List Char × Nat)) : Except PyExc (List (List Char)) :=
  (pyIndex rows 0).map fun r0 =>
    if r0.2 ≠ 1 then rows.map countLine else rows.map Prod.fst

/-- The IPs `try`/`except IndexError` (main.py:212-220). -/
def ips_section (rows : List (List Char × Nat)) : Except PyExc (List (List Char)) :=
  match ips_body rows with
  | Except.error PyExc.indexError => Except.ok ["No ips in database".toList]
  | r => r

/-- Body of the domains `try` block (main.py:228-230): no `else`
branch, so nothing is printed when the first count is 1. -/
def domains_body (rows : List (List Char × Nat)) : Except PyExc (List (List Char)) :=
  (pyIndex rows 0).map fun r0 =>
    if r0.2 ≠ 1 then rows.map countLine else []

/-- The domains `try`/`except KeyError` (main.py:227-232): an
`IndexError` raised by the body is not caught. -/
def domains_section (rows : List (List Char × Nat)) : Except PyExc (List (List Char)) :=
  match domains_body rows with
  | Except.error PyExc.keyError => Except.ok ["No domains in database".toList]
  | r => r

/-- `get_ips_and_domains` given the rows the two grouped queries return:
the printed lines, plus the uncaught exception if one escapes. -/
def get_ips_and_domains (ipRows domRows : List (List Char × Nat)) :
    List (List Char) × Option PyExc :=
  match ips_section ipRows with
  | Except.error e => (["\nIPs:".toList], some e)
  | Except.ok ipLines =>
    match domains_section domRows with
    | Except.error e => (["\nIPs:".toList] ++ ipLines ++ ["\nDomains:".toList], some e)
    | Except.ok domLines =>
      (["\nIPs:".toList] ++ ipLines ++ ["\nDomains:".toList] ++ domLines, none)

/-- C9: when the domains query returns no rows, the `IndexError` from
`rows[0]` escapes the `except KeyError` handler and the run ends with an
uncaught exception after printing the `Domains:` label, whereas the IPs
section catches the same situation and prints its fallback line. -/
theorem empty_domains_uncaught_index_error (ipRows : List (List Char × Nat)) :
    (get_ips_and_domains ipRows []).2 = some PyExc.indexError ∧
    ips_section [] = Except.ok ["No ips in database".toList] := by
  constructor
  · have hdom : domains_section [] = Except.error PyExc.indexError := rfl
    unfold get_ips_and_domains
    cases hip : ips_section ipRows with
    | error e =>
      exfalso
      unfold ips_section ips_body at hip
      cases ipRows with
      | nil => exact absurd hip (by simp [pyIndex, Except.map])
      | cons r rs => exact absurd hip (by simp [pyIndex, Except.map])
    | ok ipLines => rw [hdom]
  · rfl

/-- C10: when the domains query returns rows and every count is 1, the
domains section prints nothing after its label (the bare-value branch of
the IPs section is absent for domains), while the IPs section in the
same situation prints the bare values. -/
theorem domains_count_one_prints_no_values
    (ipRows domRows : List (List Char × Nat))
    (h1 : domRows ≠ []) (h2 : ∀ r ∈ domRows, r.2 = 1)
    (h3 : ipRows ≠ []) (h4 : ∀ r ∈ ipRows, r.2 = 1) :
    domains_section domRows = Except.ok [] ∧
    ips_section ipRows = Except.ok (ipRows.map Prod.fst) ∧
    (get_ips_and_domains ipRows domRows).1 =
      ["\nIPs:".toList] ++ ipRows.map Prod.fst ++ ["\nDomains:".toList] ∧
    (get_ips_and_domains ipRows domRows).2 = none := by
  have hdom : domains_section domRows = Except.ok [] := by
    cases domRows with
    | nil => exact absurd rfl h1
    | cons r rs =>
      have hr : r.2 = 1 := h2 r (List.mem_cons_self r rs)
      unfold domains_section domains_body
      simp [pyIndex, hr, Except.map]
  have hips : ips_section ipRows = Except.ok (ipRows.map Prod.fst) := by
    cases ipRows with
    | nil => exact absurd rfl h3
    | cons r rs =>
      have hr : r.2 = 1 := h4 r (List.mem_cons_self r rs)
      unfold ips_section ips_body
      simp [pyIndex, hr, Except.map]
  refine ⟨hdom, hips, ?_, ?_⟩
  · unfold get_ips_and_domains
    rw [hips, hdom]
    simp
  · unfold get_ips_and_domains
    rw [hips, hdom]

/-- Witness for C10: one domain row and one IP row, each with count 1. -/
theorem domains_count_one_prints_no_values_witness :
    domains_section [("a.com".toList, 1)] = Except.ok [] ∧
    ips_section [("1.1.1.1".toList, 1)] =
      Except.ok ([("1.1.1.1".toList, 1)].map Prod.fst) ∧
    (get_ips_and_domains [("1.1.1.1".toList, 1)] [("a.com".toList, 1)]).1 =
      ["\nIPs:".toList] ++ [("1.1.1.1".toList, 1)].map Prod.fst ++ ["\nDomains:".toList] ∧
    (get_ips_and_domains [("1.1.1.1".toList, 1)] [("a.com".toList, 1)]).2 = none :=
  domains_count_one_prints_no_values [("1.1.1.1".toList, 1)] [("a.com".toList, 1)]
    (by decide) (by decide) (by decide) (by decide)

/-! ### IPv4 extraction (`parse_mail`, main.py:182-183)

`re.findall(r"(?<!\w|\.)(\d{1,3}(?:\.\d{1,3}){3})(?!\.?\w)", email_content)`

The pattern is embedded as an executable backtracking matcher: the
lookbehind and lookahead become boundary tests, `\d{1,3}` tries three,
two, then one digits (Python's greedy priority), and the `findall` loop
scans positions left to right, resuming after each match.  The character
classes are modelled for ASCII text: `\w` is `[A-Za-z0-9_]`, `\d` is
`[0-9]`. -/

/-- `doc[p:p+l]`. -/
def slice (doc : List Char) (p l : Nat) : List Char := (doc.drop p).take l

def isWordChar (c : Char) : Bool := c.isAlphanum || c = '_'

def wordOrDot (c : Char) : Bool := isWordChar c || c = '.'

/-- The lookbehind `(?<!\w|\.)` holds at position `p`. -/
def lookbehindOk (doc : List Char) (p : Nat) : Bool :=
  match p with
  | 0 => true
  | q + 1 =>
    match doc[q]? with
    | some c => !(wordOrDot c)
    | none => true

/-- Does the lookahead body `\.?\w` match at position `q`? -/
def aheadWordAt (doc : List Char) (q : Nat) : Bool :=
  (match doc[q]? with
   | some c => isWordChar c
   | none => false) ||
  ((doc[q]? == some '.') &&
   (match doc[q + 1]? with
    | some c => isWordChar c
    | none => false))

/-- The lookahead `(?!\.?\w)` holds at position `q`. -/
def lookaheadOk (doc : List Char) (q : Nat) : Bool := !(aheadWordAt doc q)

/-- `\d{k}` exactly: `k` consecutive digits starting at position `p`. -/
def digitsAt (doc : List Char) (p k : Nat) : Bool :=
  (slice doc p k).length = k && (slice doc p k).all Char.isDigit

/-- Greedy candidate counts for `\d{1,3}`, longest first. -/
def quadGroupTries : List Nat := [3, 2, 1]

/-- Backtracking match of `\d{1,3}(?:\.\d{1,3}){n}(?!\.?\w)` starting at
position `p`; returns the position just after the digits on success. -/
def matchGroups (doc : List Char) : Nat → Nat → Option Nat
  | p, 0 => quadGroupTries.findSome? fun k =>
      if digitsAt doc p k ∧ lookaheadOk doc (p + k) then some (p + k) else none
  | p, n + 1 => quadGroupTries.findSome? fun k =>
      if digitsAt doc p k ∧ doc[p + k]? = some '.' then matchGroups doc (p + k + 1) n
      else none

/-- Attempt the whole IPv4 pattern at position `p`; returns the end of
the match. -/
def ipv4At (doc : List Char) (p : Nat) : Option Nat :=
  if lookbehindOk doc p then matchGroups doc p 3 else none

/-- The `re.findall` scanning loop: try each position left to right,
resume after each (necessarily non-empty) match.  The fuel bounds the
number of scanning steps; `ip_v4` supplies enough. -/
def ipv4ScanAux (doc : List Char) : Nat → Nat → List (List Char)
  | 0, _ => []
  | fuel + 1, p =>
    if p < doc.length then
      match ipv4At doc p with
      | some e => slice doc p (e - p) :: ipv4ScanAux doc fuel e
      | none => ipv4ScanAux doc fuel (p + 1)
    else []

/-- The IPv4 extraction of `parse_mail`. -/
def ip_v4 (doc : List Char) : List (List Char) :=
  ipv4ScanAux doc (doc.length + 1) 0

/-- Modelled from the spec (§4.2, §8): a well-formed dotted-quad token is
four dot-separated groups of one to three digits. -/
def isQuadToken (s : List Char) : Bool :=
  (s.splitOn '.').length = 4 &&
    (s.splitOn '.').all fun g => (1 ≤ g.length && g.length ≤ 3) && g.all Char.isDigit

/-- Possible lengths of a dotted-quad token: four to twelve digits plus
three dots. -/
def quadLenCandidates : List Nat := (List.range 9).map (· + 7)

/-- Modelled from the spec (§4.2): the valid dotted-quad occurrence
starting at position `p`, if any — well-formed, not preceded by a word
character or a dot, not followed by a bare word character or a dot then a
word character.  Returns the occurrence's length. -/
def ipv4OccAt (doc : List Char) (p : Nat) : Option Nat :=
  quadLenCandidates.find? fun l =>
    decide (p + l ≤ doc.length) && isQuadToken (slice doc p l) &&
      lookbehindOk doc p && lookaheadOk doc (p + l)

/-- Modelled from the spec: every valid dotted-quad occurrence, in order
of its starting position, duplicates preserved. -/
def ipv4Occurrences (doc : List Char) : List (List Char) :=
  (List.range doc.length).filterMap fun p =>
    (ipv4OccAt doc p).map fun l => slice doc p l

/-! #### Slice and intercalate toolkit -/

theorem length_slice (doc : List Char) (p l : Nat) (h : p + l ≤ doc.length) :
    (slice doc p l).length = l := by
  unfold slice
  rw [List.length_take, List.length_drop]
  omega

theorem getElem?_slice (doc : List Char) (p l j : Nat) (hj : j < l) :
    (slice doc p l)[j]? = doc[p + j]? := by
  unfold slice
  rw [List.getElem?_take, if_pos hj, List.getElem?_drop]

theorem slice_split (doc : List Char) (p l m : Nat) (x : Char)
    (hm : m < l) (hx : doc[p + m]? = some x) :
    slice doc p l = slice doc p m ++ x :: slice doc (p + m + 1) (l - m - 1) := by
  obtain ⟨hlt, hget⟩ := List.getElem?_eq_some_iff.mp hx
  unfold slice
  have h1 : l = m + (1 + (l - m - 1)) := by omega
  conv_lhs => rw [h1]
  rw [List.take_add, List.drop_drop]
  congr 1
  rw [List.drop_eq_getElem_cons hlt, hget]
  rw [(by omega : 1 + (l - m - 1) = (l - m - 1) + 1), List.take_succ_cons]

theorem intercalate_single (g : List Char) : List.intercalate ['.'] [g] = g := by
  simp [List.intercalate]

theorem intercalate_cons2 (g : List Char) (gs : List (List Char)) (h : gs ≠ []) :
    List.intercalate ['.'] (g :: gs) = g ++ '.' :: List.intercalate ['.'] gs := by
  cases gs with
  | nil => exact absurd rfl h
  | cons g2 t => simp [List.intercalate, List.intersperse]

theorem mem_intercalate_dot (c : Char) (gs : List (List Char))
    (h : c ∈ List.intercalate ['.'] gs) : (∃ g ∈ gs, c ∈ g) ∨ c = '.' := by
  induction gs with
  | nil => simp [List.intercalate] at h
  | cons g t ih =>
    cases t with
    | nil =>
      rw [intercalate_single] at h
      exact Or.inl ⟨g, List.mem_cons_self g [], h⟩
    | cons g2 t2 =>
      rw [intercalate_cons2 g (g2 :: t2) (by simp)] at h
      rcases List.mem_append.mp h with h | h
      · exact Or.inl ⟨g, List.mem_cons_self _ _, h⟩
      · rcases List.mem_cons.mp h with h | h
        · exact Or.inr h
        · rcases ih h with ⟨g3, hg3, hc⟩ | h
          · exact Or.inl ⟨g3, List.mem_cons_of_mem _ hg3, hc⟩
          · exact Or.inr h

/-! #### Facts about the digit-group matcher -/

theorem digitsAt_le_length (doc : List Char) (p k : Nat) (hk : 1 ≤ k)
    (h : digitsAt doc p k = true) : p + k ≤ doc.length := by
  unfold digitsAt at h
  obtain ⟨h1, _⟩ := Bool.and_eq_true_iff.mp h
  have h2 : (slice doc p k).length = k := of_decide_eq_true h1
  unfold slice at h2
  rw [List.length_take, List.length_drop] at h2
  have h3 : k ⊓ (doc.length - p) ≤ doc.length - p := Nat.min_le_right _ _
  rw [h2] at h3
  omega

theorem digitsAt_getElem (doc : List Char) (p k j : Nat)
    (h : digitsAt doc p k = true) (hj : j < k) :
    ∃ c, doc[p + j]? = some c ∧ c.isDigit = true := by
  have hlen := digitsAt_le_length doc p k (by omega) h
  unfold digitsAt at h
  obtain ⟨_, h2⟩ := Bool.and_eq_true_iff.mp h
  have hsl : (slice doc p k).length = k := length_slice doc p k hlen
  have hjj : j < (slice doc p k).length := by omega
  refine ⟨(slice doc p k)[j], ?_, ?_⟩
  · rw [← getElem?_slice doc p k j hj, List.getElem?_eq_getElem hjj]
  · exact List.all_eq_true.mp h2 _ (List.getElem_mem hjj)

theorem digitsAt_intro (doc : List Char) (p k : Nat)
    (hlen : p + k ≤ doc.length) (hall : (slice doc p k).all Char.isDigit = true) :
    digitsAt doc p k = true := by
  unfold digitsAt
  rw [Bool.and_eq_true_iff]
  exact ⟨by rw [length_slice doc p k hlen]; simp, hall⟩

/-- The digit groups of a dotted-quad token: one to three digits each. -/
def goodGroup (g : List Char) : Prop :=
  1 ≤ g.length ∧ g.length ≤ 3 ∧ g.all Char.isDigit = true

theorem matchGroups_sound (doc : List Char) :
    ∀ n p e, matchGroups doc p n = some e →
      p < e ∧ e ≤ doc.length ∧ 2 * n + 1 ≤ e - p ∧ e - p ≤ 4 * n + 3 ∧
      lookaheadOk doc e = true ∧
      ∃ gs : List (List Char), gs.length = n + 1 ∧ (∀ g ∈ gs, goodGroup g) ∧
        slice doc p (e - p) = List.intercalate ['.'] gs := by
  intro n
  induction n with
  | zero =>
    intro p e h
    unfold matchGroups at h
    obtain ⟨k, hk, hfk⟩ := List.exists_of_findSome?_eq_some h
    have hk3 : k = 3 ∨ k = 2 ∨ k = 1 := by
      simpa [quadGroupTries] using hk
    split at hfk
    case isTrue hc =>
      obtain ⟨hd, hla⟩ := hc
      cases hfk
      have hk1 : 1 ≤ k := by omega
      have hlen := digitsAt_le_length doc p k hk1 hd
      have hall1 : (slice doc p k).all Char.isDigit = true := by
        unfold digitsAt at hd
        exact (Bool.and_eq_true_iff.mp hd).2
      refine ⟨by omega, by omega, by omega, by omega, ?_, [slice doc p k], rfl, ?_, ?_⟩
      · simpa using hla
      · intro g hg
        rw [List.mem_singleton] at hg
        subst hg
        exact ⟨by rw [length_slice doc p k hlen]; omega,
               by rw [length_slice doc p k hlen]; omega, hall1⟩
      · rw [(by omega : p + k - p = k), intercalate_single]
    case isFalse => exact absurd hfk (by simp)
  | succ n ih =>
    intro p e h
    unfold matchGroups at h
    obtain ⟨k, hk, hfk⟩ := List.exists_of_findSome?_eq_some h
    have hk3 : k = 3 ∨ k = 2 ∨ k = 1 := by
      simpa [quadGroupTries] using hk
    split at hfk
    case isTrue hc =>
      obtain ⟨hd, hdot⟩ := hc
      obtain ⟨h1, h2, h3, h4, h5, gs, hgl, hgood, hslice⟩ := ih (p + k + 1) e hfk
      have hk1 : 1 ≤ k := by omega
      have hlen := digitsAt_le_length doc p k hk1 hd
      have hall2 : (slice doc p k).all Char.isDigit = true := by
        unfold digitsAt at hd
        exact (Bool.and_eq_true_iff.mp hd).2
      have hgs0 : gs ≠ [] := by
        intro habs
        rw [habs] at hgl
        exact absurd hgl (by simp)
      have hsplit := slice_split doc p (e - p) k '.' (by omega) hdot
      refine ⟨by omega, h2, by omega, by omega, h5, slice doc p k :: gs, by simp [hgl], ?_, ?_⟩
      · intro g hg
        rcases List.mem_cons.mp hg with hg | hg
        · subst hg
          exact ⟨by rw [length_slice doc p k hlen]; omega,
                 by rw [length_slice doc p k hlen]; omega, hall2⟩
        · exact hgood g hg
      · rw [hsplit, (by omega : e - p - k - 1 = e - (p + k + 1)), hslice,
            intercalate_cons2 _ _ hgs0]
    case isFalse => exact absurd hfk (by simp)

theorem not_digit_of_lookahead (doc : List Char) (q : Nat)
    (h : lookaheadOk doc q = true) (c : Char) (hc : doc[q]? = some c) :
    c.isDigit = false := by
  by_contra habs
  rw [Bool.not_eq_false] at habs
  unfold lookaheadOk aheadWordAt at h
  rw [hc] at h
  have hw : isWordChar c = true := by
    unfold isWordChar
    have han : c.isAlphanum = true := by
      unfold Char.isAlphanum
      rw [habs, Bool.or_true]
    rw [han, Bool.true_or]
  simp [hw] at h

theorem digitsAt_false_beyond (doc : List Char) (p k k' : Nat) (hkk : k < k')
    (h : ∀ c, doc[p + k]? = some c → c.isDigit = false) :
    digitsAt doc p k' = false := by
  by_contra habs
  rw [Bool.not_eq_false] at habs
  obtain ⟨c, hc, hd⟩ := digitsAt_getElem doc p k' k habs hkk
  rw [h c hc] at hd
  exact absurd hd (by simp)

/-- The head group of the token at `p` is matched by `digitsAt`, and for
a longer-than-the-group candidate the digits test fails. -/
theorem slice_take_group (doc : List Char) (p k L : Nat) (hkL : k ≤ L) :
    slice doc p k = (slice doc p L).take k := by
  unfold slice
  rw [List.take_take, Nat.min_eq_left hkL]

theorem matchGroups_complete (doc : List Char) :
    ∀ n p (gs : List (List Char)), gs.length = n + 1 →
      (∀ g ∈ gs, goodGroup g) →
      slice doc p (List.intercalate ['.'] gs).length = List.intercalate ['.'] gs →
      p + (List.intercalate ['.'] gs).length ≤ doc.length →
      lookaheadOk doc (p + (List.intercalate ['.'] gs).length) = true →
      matchGroups doc p n = some (p + (List.intercalate ['.'] gs).length) := by
  intro n
  induction n with
  | zero =>
    intro p gs hgl hgood hslice hlen hla
    cases gs with
    | nil => simp at hgl
    | cons g t =>
      cases t with
      | cons g2 t2 => simp at hgl
      | nil =>
        rw [intercalate_single] at hslice hlen hla ⊢
        obtain ⟨hg1, hg3, hgd⟩ := hgood g (List.mem_singleton.mpr rfl)
        have hd : digitsAt doc p g.length = true :=
          digitsAt_intro doc p g.length hlen (by rw [hslice]; exact hgd)
        have hbeyond : ∀ k', g.length < k' → digitsAt doc p k' = false := fun k' hk' =>
          digitsAt_false_beyond doc p g.length k' hk'
            (not_digit_of_lookahead doc (p + g.length) hla)
        unfold matchGroups quadGroupTries
        rcases (by omega : g.length = 1 ∨ g.length = 2 ∨ g.length = 3) with hk | hk | hk
        · rw [hk] at hd hla ⊢
          simp [List.findSome?_cons, hd, hla, hbeyond 2 (by omega), hbeyond 3 (by omega)]
        · rw [hk] at hd hla ⊢
          simp [List.findSome?_cons, hd, hla, hbeyond 3 (by omega)]
        · rw [hk] at hd hla ⊢
          simp [List.findSome?_cons, hd, hla]
  | succ n ih =>
    intro p gs hgl hgood hslice hlen hla
    cases gs with
    | nil => simp at hgl
    | cons g gs' =>
      have hgs'l : gs'.length = n + 1 := by
        simpa using hgl
      have hgs'0 : gs' ≠ [] := by
        intro habs
        rw [habs] at hgs'l
        exact absurd hgs'l (by simp)
      rw [intercalate_cons2 g gs' hgs'0] at hslice hlen hla ⊢
      obtain ⟨hg1, hg3, hgd⟩ := hgood g (List.mem_cons_self _ _)
      set L' := (List.intercalate ['.'] gs').length with hL'
      have hLlen : (g ++ '.' :: List.intercalate ['.'] gs').length = g.length + 1 + L' := by
        rw [List.length_append, List.length_cons]
        omega
      rw [hLlen] at hslice hlen hla ⊢
      have hheadeq : slice doc p g.length = g := by
        rw [slice_take_group doc p g.length (g.length + 1 + L') (by omega), hslice,
            List.take_left]
      have hd : digitsAt doc p g.length = true :=
        digitsAt_intro doc p g.length (by omega) (by rw [hheadeq]; exact hgd)
      have hdot : doc[p + g.length]? = some '.' := by
        have h1 : (slice doc p (g.length + 1 + L'))[g.length]? = doc[p + g.length]? :=
          getElem?_slice doc p (g.length + 1 + L') g.length (by omega)
        rw [← h1, hslice, List.getElem?_append_right (le_refl g.length)]
        simp
      have hbeyond : ∀ k', g.length < k' → digitsAt doc p k' = false := fun k' hk' =>
        digitsAt_false_beyond doc p g.length k' hk'
          (fun c hc => by
            rw [hdot] at hc
            cases hc
            rfl)
      have htail : slice doc (p + g.length + 1) L' = List.intercalate ['.'] gs' := by
        have hsp := slice_split doc p (g.length + 1 + L') g.length '.' (by omega) hdot
        rw [hslice] at hsp
        obtain ⟨-, h2⟩ := List.append_inj hsp (by rw [hheadeq])
        rw [(by omega : g.length + 1 + L' - g.length - 1 = L')] at h2
        injection h2 with h3 h4
        exact h4.symm
      have hrec : matchGroups doc (p + g.length + 1) n =
          some (p + g.length + 1 + L') := by
        have hih := ih (p + g.length + 1) gs' hgs'l
          (fun g2 hg2 => hgood g2 (List.mem_cons_of_mem _ hg2))
          htail (by omega)
          (by rw [(by omega : p + g.length + 1 + L' = p + (g.length + 1 + L'))]; exact hla)
        rw [← hL'] at hih
        exact hih
      unfold matchGroups quadGroupTries
      rcases (by omega : g.length = 1 ∨ g.length = 2 ∨ g.length = 3) with hk | hk | hk
      · rw [hk] at hd hdot hrec ⊢
        simp only [List.findSome?_cons, hd, hdot, hrec,
          hbeyond 2 (by omega), hbeyond 3 (by omega)]
        simp
        omega
      · rw [hk] at hd hdot hrec ⊢
        simp only [List.findSome?_cons, hd, hdot, hrec, hbeyond 3 (by omega)]
        simp
        omega
      · rw [hk] at hd hdot hrec ⊢
        simp only [List.findSome?_cons, hd, hdot, hrec]
        simp
        omega

theorem isQuadToken_iff (s : List Char) :
    isQuadToken s = true ↔
      ∃ gs : List (List Char), gs.length = 4 ∧ (∀ g ∈ gs, goodGroup g) ∧
        s = List.intercalate ['.'] gs := by
  constructor
  · intro h
    unfold isQuadToken at h
    obtain ⟨h1, h2⟩ := Bool.and_eq_true_iff.mp h
    refine ⟨s.splitOn '.', of_decide_eq_true h1, ?_, (List.intercalate_splitOn s '.').symm⟩
    intro g hg
    have hgall := List.all_eq_true.mp h2 g hg
    obtain ⟨h3, h4⟩ := Bool.and_eq_true_iff.mp hgall
    obtain ⟨h5, h6⟩ := Bool.and_eq_true_iff.mp h3
    exact ⟨of_decide_eq_true h5, of_decide_eq_true h6, h4⟩
  · rintro ⟨gs, hgl, hgood, rfl⟩
    have hnd : ∀ g ∈ gs, '.' ∉ g := by
      intro g hg hdot
      obtain ⟨-, -, hall⟩ := hgood g hg
      have hde := List.all_eq_true.mp hall '.' hdot
      exact absurd hde (by decide)
    have hgs0 : gs ≠ [] := by
      intro habs
      rw [habs] at hgl
      exact absurd hgl (by decide)
    unfold isQuadToken
    rw [List.splitOn_intercalate gs '.' hnd hgs0, Bool.and_eq_true_iff]
    refine ⟨decide_eq_true hgl, List.all_eq_true.mpr fun g hg => ?_⟩
    obtain ⟨ha, hb, hc⟩ := hgood g hg
    rw [Bool.and_eq_true_iff]
    exact ⟨Bool.and_eq_true_iff.mpr ⟨decide_eq_true ha, decide_eq_true hb⟩, hc⟩

theorem find?_eq_some_unique {α : Type} {p : α → Bool} {l : List α} {a : α}
    (ha : a ∈ l) (hpa : p a = true) (huniq : ∀ b ∈ l, p b = true → b = a) :
    l.find? p = some a := by
  induction l with
  | nil => simp at ha
  | cons x xs ih =>
    by_cases hx : p x = true
    · have hxa : x = a := huniq x (List.mem_cons_self _ _) hx
      rw [List.find?_cons_of_pos _ hx, hxa]
    · rw [List.find?_cons_of_neg _ (by simpa using hx)]
      rcases List.mem_cons.mp ha with h | h
      · exact absurd (h ▸ hpa) hx
      · exact ih h fun b hb hpb => huniq b (List.mem_cons_of_mem _ hb) hpb

/-- A valid spec-side occurrence of length `l` at `p` forces the engine's
backtracking matcher to succeed there with exactly that length. -/
theorem occCond_matchGroups (doc : List Char) (p l : Nat)
    (hlen : p + l ≤ doc.length) (htok : isQuadToken (slice doc p l) = true)
    (hla : lookaheadOk doc (p + l) = true) :
    matchGroups doc p 3 = some (p + l) := by
  obtain ⟨gs, hgl, hgood, hseq⟩ := (isQuadToken_iff _).mp htok
  have hl : (List.intercalate ['.'] gs).length = l := by
    rw [← hseq]
    exact length_slice doc p l hlen
  have hmc := matchGroups_complete doc 3 p gs (by omega) hgood
    (by rw [hl]; exact hseq) (by rw [hl]; exact hlen) (by rw [hl]; exact hla)
  rw [hl] at hmc
  exact hmc

/-- At every position the regex engine's verdict coincides with the
spec-side valid-occurrence test. -/
theorem ipv4At_eq (doc : List Char) (p : Nat) :
    ipv4At doc p = (ipv4OccAt doc p).map (fun l => p + l) := by
  by_cases hlb : lookbehindOk doc p = true
  · cases hmg : matchGroups doc p 3 with
    | some e =>
      obtain ⟨hpe, helen, hlow, hhigh, hla, gs, hgl, hgood, hslice⟩ :=
        matchGroups_sound doc 3 p e hmg
      have hcond : (decide (p + (e - p) ≤ doc.length) &&
          isQuadToken (slice doc p (e - p)) && lookbehindOk doc p &&
          lookaheadOk doc (p + (e - p))) = true := by
        rw [(by omega : p + (e - p) = e)]
        refine Bool.and_eq_true_iff.mpr ⟨Bool.and_eq_true_iff.mpr
          ⟨Bool.and_eq_true_iff.mpr ⟨decide_eq_true helen, ?_⟩, hlb⟩, hla⟩
        exact (isQuadToken_iff _).mpr ⟨gs, by omega, hgood, hslice⟩
      have huniq : ∀ l ∈ quadLenCandidates,
          (decide (p + l ≤ doc.length) && isQuadToken (slice doc p l) &&
            lookbehindOk doc p && lookaheadOk doc (p + l)) = true → l = e - p := by
        intro l hl hc
        obtain ⟨hc1, hc4⟩ := Bool.and_eq_true_iff.mp hc
        obtain ⟨hc2, hc3⟩ := Bool.and_eq_true_iff.mp hc1
        obtain ⟨hc5, hc6⟩ := Bool.and_eq_true_iff.mp hc2
        have hm := occCond_matchGroups doc p l (of_decide_eq_true hc5) hc6 hc4
        rw [hmg] at hm
        have heq : e = p + l := by
          injection hm
        omega
      have hmem : e - p ∈ quadLenCandidates := by
        unfold quadLenCandidates
        exact List.mem_map.mpr ⟨e - p - 7, List.mem_range.mpr (by omega), by omega⟩
      have hocc : ipv4OccAt doc p = some (e - p) := by
        unfold ipv4OccAt
        exact find?_eq_some_unique hmem hcond fun b hb hpb => huniq b hb hpb
      unfold ipv4At
      rw [if_pos hlb, hmg, hocc]
      simp
      omega
    | none =>
      have hocc : ipv4OccAt doc p = none := by
        unfold ipv4OccAt
        rw [List.find?_eq_none]
        intro l hl hcondl
        obtain ⟨hc1, hc4⟩ := Bool.and_eq_true_iff.mp hcondl
        obtain ⟨hc2, hc3⟩ := Bool.and_eq_true_iff.mp hc1
        obtain ⟨hc5, hc6⟩ := Bool.and_eq_true_iff.mp hc2
        have hm := occCond_matchGroups doc p l (of_decide_eq_true hc5) hc6 hc4
        rw [hmg] at hm
        exact absurd hm (by simp)
      unfold ipv4At
      rw [if_pos hlb, hmg, hocc]
      rfl
  · have h1 : ipv4At doc p = none := by
      unfold ipv4At
      rw [if_neg hlb]
    have hlbf : lookbehindOk doc p = false := by
      rwa [Bool.not_eq_true] at hlb
    have h2 : ipv4OccAt doc p = none := by
      unfold ipv4OccAt
      rw [List.find?_eq_none]
      intro l hl
      simp [hlbf]
    rw [h1, h2]
    rfl

theorem lookbehindOk_false (doc : List Char) (q : Nat) (c : Char) (hq : 1 ≤ q)
    (hc : doc[q - 1]? = some c) (hw : wordOrDot c = true) :
    lookbehindOk doc q = false := by
  obtain ⟨q2, rfl⟩ : ∃ q2, q = q2 + 1 := ⟨q - 1, by omega⟩
  rw [(by omega : q2 + 1 - 1 = q2)] at hc
  have hstep : lookbehindOk doc (q2 + 1) =
      (match doc[q2]? with
       | some c2 => !(wordOrDot c2)
       | none => true) := rfl
  rw [hstep, hc]
  simp [hw]

/-- Inside an engine match no valid occurrence can start: every character
of the matched token is a digit or a dot, so the lookbehind fails at each
interior position. -/
theorem occAt_none_inside (doc : List Char) (p e q : Nat)
    (hmg : matchGroups doc p 3 = some e) (hq1 : p < q) (hq2 : q < e) :
    ipv4OccAt doc q = none := by
  obtain ⟨hpe, helen, -, -, -, gs, hgl, hgood, hslice⟩ := matchGroups_sound doc 3 p e hmg
  have hj : q - 1 - p < e - p := by omega
  have hgq : (slice doc p (e - p))[q - 1 - p]? = doc[p + (q - 1 - p)]? :=
    getElem?_slice doc p (e - p) (q - 1 - p) hj
  rw [(by omega : p + (q - 1 - p) = q - 1)] at hgq
  have hq1len : q - 1 < doc.length := by omega
  have hsl : (slice doc p (e - p))[q - 1 - p]? = some doc[q - 1] := by
    rw [hgq, List.getElem?_eq_getElem hq1len]
  have hmem : doc[q - 1] ∈ slice doc p (e - p) := by
    obtain ⟨hlt, hget⟩ := List.getElem?_eq_some_iff.mp hsl
    exact hget ▸ List.getElem_mem hlt
  rw [hslice] at hmem
  have hwd : wordOrDot doc[q - 1] = true := by
    rcases mem_intercalate_dot _ gs hmem with ⟨g, hg, hcg⟩ | hdotc
    · obtain ⟨-, -, hall⟩ := hgood g hg
      have hdig := List.all_eq_true.mp hall _ hcg
      have han : (doc[q - 1]).isAlphanum = true := by
        unfold Char.isAlphanum
        rw [hdig, Bool.or_true]
      unfold wordOrDot isWordChar
      rw [han]
      simp
    · rw [hdotc]
      decide
  have hlbf : lookbehindOk doc q = false :=
    lookbehindOk_false doc q doc[q - 1] (by omega)
      (List.getElem?_eq_getElem hq1len) hwd
  unfold ipv4OccAt
  rw [List.find?_eq_none]
  intro l hl
  simp [hlbf]

theorem ipv4ScanAux_eq (doc : List Char) :
    ∀ fuel p, doc.length - p < fuel →
      ipv4ScanAux doc fuel p =
        (List.range' p (doc.length - p)).filterMap
          (fun q => (ipv4OccAt doc q).map fun l => slice doc q l) := by
  intro fuel
  induction fuel with
  | zero => intro p h; omega
  | succ fuel ih =>
    intro p h
    unfold ipv4ScanAux
    by_cases hp : p < doc.length
    · rw [if_pos hp]
      cases hat : ipv4At doc p with
      | some e =>
        have hmg : matchGroups doc p 3 = some e := by
          unfold ipv4At at hat
          split at hat
          · exact hat
          · exact absurd hat (by simp)
        obtain ⟨hpe, helen, -, -, -, -, -, -, -⟩ := matchGroups_sound doc 3 p e hmg
        have hocc : ipv4OccAt doc p = some (e - p) := by
          have heq := ipv4At_eq doc p
          rw [hat] at heq
          cases hoc : ipv4OccAt doc p with
          | none =>
            rw [hoc] at heq
            exact absurd heq (by simp)
          | some l =>
            rw [hoc] at heq
            simp only [Option.map_some'] at heq
            injection heq with h2
            congr 1
            omega
        rw [(by omega : doc.length - p = (doc.length - p - 1) + 1), List.range'_succ,
            List.filterMap_cons]
        simp only [hocc, Option.map_some']
        have hsplitr : List.range' (p + 1) (doc.length - p - 1) =
            List.range' (p + 1) (e - p - 1) ++ List.range' e (doc.length - e) := by
          have happ := List.range'_append (p + 1) (e - p - 1) (doc.length - e) 1
          rw [(by omega : p + 1 + 1 * (e - p - 1) = e),
              (by omega : doc.length - e + (e - p - 1) = doc.length - p - 1)] at happ
          exact happ.symm
        rw [hsplitr, List.filterMap_append]
        have hnil : (List.range' (p + 1) (e - p - 1)).filterMap
            (fun q => (ipv4OccAt doc q).map fun l => slice doc q l) = [] := by
          rw [List.filterMap_eq_nil_iff]
          intro q hq
          rw [List.mem_range'_1] at hq
          rw [occAt_none_inside doc p e q hmg (by omega) (by omega)]
          rfl
        rw [hnil, List.nil_append]
        exact congrArg _ (ih e (by omega))
      | none =>
        have hocc : ipv4OccAt doc p = none := by
          have heq := ipv4At_eq doc p
          rw [hat] at heq
          cases hoc : ipv4OccAt doc p with
          | none => rfl
          | some l =>
            rw [hoc] at heq
            exact absurd heq (by simp)
        rw [(by omega : doc.length - p = (doc.length - p - 1) + 1), List.range'_succ,
            List.filterMap_cons]
        simp only [hocc, Option.map_none']
        rw [(by omega : doc.length - p - 1 = doc.length - (p + 1))]
        exact ih (p + 1) (by omega)
    · rw [if_neg hp, (by omega : doc.length - p = 0)]
      rfl

/-- C6: the IPv4 extraction of `parse_mail` returns exactly the valid
dotted-quad occurrences of the document — each occurrence of a
well-formed dotted-quad token that is not embedded in a longer word-like
or dotted token appears exactly once, in order of appearance, duplicates
preserved. -/
theorem ipv4_extraction_spec (doc : List Char) : ip_v4 doc = ipv4Occurrences doc := by
  unfold ip_v4 ipv4Occurrences
  rw [ipv4ScanAux_eq doc (doc.length + 1) 0 (by omega), List.range_eq_range',
      Nat.sub_zero]

end MailParse
